import Mathlib

/-!
Verification development for the `credentials` package (`src/credentials.go`):
a shallow embedding of the credential data model, the HMAC-SHA256
authentication engine, and the three codecs (token pair, JSON fields,
canonical binary), together with theorems settling the specification claims.

Bytes are modelled as `Nat` values (< 256 where it matters), byte strings as
`List Nat`, Go strings as Lean `String`/`List Char`, and `time.Time` by its
Unix-seconds value (`Int`), which is all `Create` reads from it.
-/

namespace Credentials

/-- Splits off the first `n` bytes of a list, failing when fewer are present
(models reading a length-delimited chunk from a buffer). -/
def takeN (n : Nat) (l : List Nat) : Option (List Nat × List Nat) :=
  if n ≤ l.length then some (l.take n, l.drop n) else none

/-! ## Varint (base-128 little-endian, as used by the protobuf wire format) -/

/-- Unsigned varint encoding: 7 value bits per byte, high bit set on all but
the last byte. -/
def varintEnc (n : Nat) : List Nat :=
  if h : n < 128 then [n] else (n % 128 + 128) :: varintEnc (n / 128)
  termination_by n
  decreasing_by exact Nat.div_lt_self (by omega) (by omega)

/-- Varint decoding with a byte-count budget (`fuel`); returns the value and
the unconsumed remainder. -/
def varintDecAux : Nat → List Nat → Option (Nat × List Nat)
  | 0, _ => none
  | _ + 1, [] => none
  | fuel + 1, b :: rest =>
    if b < 128 then some (b, rest)
    else (varintDecAux fuel rest).map (fun p => (b - 128 + 128 * p.1, p.2))

/-- Varint decoding as the protobuf wire reader performs it: at most 10 bytes
and the result must fit in 64 bits. -/
def varintDec (l : List Nat) : Option (Nat × List Nat) :=
  (varintDecAux 10 l).bind (fun p => if p.1 < 2 ^ 64 then some p else none)

/-- Two's-complement view of a signed 64-bit integer as the unsigned value the
wire carries. -/
def uint64OfInt (t : Int) : Nat := (t % ((2 : Int) ^ 64)).toNat

/-- Recovers the signed 64-bit integer from its unsigned wire value. -/
def intOfUint64 (v : Nat) : Int :=
  if v < 2 ^ 63 then (v : Int) else (v : Int) - 2 ^ 64

/-! ## SHA-256 (FIPS 180-4), over byte lists, words as `Nat` mod `2^32` -/

/-- Truncation to a 32-bit word. -/
def w32 (n : Nat) : Nat := n % 2 ^ 32

/-- Right rotation of a 32-bit word by `n` bits. -/
def rotr32 (n x : Nat) : Nat := w32 (x / 2 ^ n + x % 2 ^ n * 2 ^ (32 - n))

/-- Logical right shift. -/
def shr (n x : Nat) : Nat := x / 2 ^ n

/-- SHA-256 small sigma 0. -/
def ssig0 (x : Nat) : Nat := rotr32 7 x ^^^ rotr32 18 x ^^^ shr 3 x

/-- SHA-256 small sigma 1. -/
def ssig1 (x : Nat) : Nat := rotr32 17 x ^^^ rotr32 19 x ^^^ shr 10 x

/-- SHA-256 big sigma 0. -/
def bsig0 (x : Nat) : Nat := rotr32 2 x ^^^ rotr32 13 x ^^^ rotr32 22 x

/-- SHA-256 big sigma 1. -/
def bsig1 (x : Nat) : Nat := rotr32 6 x ^^^ rotr32 11 x ^^^ rotr32 25 x

/-- SHA-256 choose function; complement taken within 32 bits. -/
def chFn (x y z : Nat) : Nat := (x &&& y) ^^^ ((x ^^^ (2 ^ 32 - 1)) &&& z)

/-- SHA-256 majority function. -/
def majFn (x y z : Nat) : Nat := (x &&& y) ^^^ (x &&& z) ^^^ (y &&& z)

/-- The 64 SHA-256 round constants (decimal). -/
def sha256K : List Nat :=
  [1116352408, 1899447441, 3049323471, 3921009573, 961987163, 1508970993,
   2453635748, 2870763221, 3624381080, 310598401, 607225278, 1426881987,
   1925078388, 2162078206, 2614888103, 3248222580, 3835390401, 4022224774,
   264347078, 604807628, 770255983, 1249150122, 1555081692, 1996064986,
   2554220882, 2821834349, 2952996808, 3210313671, 3336571891, 3584528711,
   113926993, 338241895, 666307205, 773529912, 1294757372, 1396182291,
   1695183700, 1986661051, 2177026350, 2456956037, 2730485921, 2820302411,
   3259730800, 3345764771, 3516065817, 3600352804, 4094571909, 275423344,
   430227734, 506948616, 659060556, 883997877, 958139571, 1322822218,
   1537002063, 1747873779, 1955562222, 2024104815, 2227730452, 2361852424,
   2428436474, 2756734187, 3204031479, 3329325298]

/-- The SHA-256 initial hash value (decimal). -/
def sha256H0 : List Nat :=
  [1779033703, 3144134277, 1013904242, 2773480762,
   1359893119, 2600822924, 528734635, 1541459225]

/-- Packs four big-endian bytes into a 32-bit word. -/
def beWord (a b c d : Nat) : Nat := ((a * 256 + b) * 256 + c) * 256 + d

/-- Groups a byte list into big-endian 32-bit words (length a multiple of 4). -/
def toWords : List Nat → List Nat
  | a :: b :: c :: d :: rest => beWord a b c d :: toWords rest
  | _ => []

/-- Extends a 16-word block schedule by `k` further words. -/
def extendSchedule : Nat → List Nat → List Nat
  | 0, w => w
  | k + 1, w =>
    extendSchedule k (w ++ [w32 (ssig1 (w.getD (w.length - 2) 0) +
      w.getD (w.length - 7) 0 + ssig0 (w.getD (w.length - 15) 0) +
      w.getD (w.length - 16) 0)])

/-- One SHA-256 round on the eight-word working state. -/
def sha256Round (st : List Nat) (kw : Nat × Nat) : List Nat :=
  match st with
  | [a, b, c, d, e, f, g, h] =>
    let t1 := w32 (h + bsig1 e + chFn e f g + kw.1 + kw.2)
    let t2 := w32 (bsig0 a + majFn a b c)
    [w32 (t1 + t2), a, b, c, w32 (d + t1), e, f, g]
  | other => other

/-- Compression of one 64-byte block into the running hash value. -/
def sha256Compress (h : List Nat) (block : List Nat) : List Nat :=
  let w := extendSchedule 48 (toWords block)
  let st := (sha256K.zip w).foldl sha256Round h
  (h.zip st).map (fun p => w32 (p.1 + p.2))

/-- Big-endian 8-byte encoding of a 64-bit length. -/
def be64 (n : Nat) : List Nat :=
  [n / 2 ^ 56 % 256, n / 2 ^ 48 % 256, n / 2 ^ 40 % 256, n / 2 ^ 32 % 256,
   n / 2 ^ 24 % 256, n / 2 ^ 16 % 256, n / 2 ^ 8 % 256, n % 256]

/-- SHA-256 padding: a 0x80 byte, zeros to 56 mod 64, and the bit length. -/
def sha256Pad (msg : List Nat) : List Nat :=
  msg ++ [128] ++ List.replicate ((119 - msg.length % 64) % 64) 0 ++
    be64 (8 * msg.length)

/-- Folds the compression function over the 64-byte blocks of a padded
message; `fuel` bounds the number of blocks. -/
def sha256Blocks : Nat → List Nat → List Nat → List Nat
  | _, h, [] => h
  | 0, h, _ => h
  | fuel + 1, h, l => sha256Blocks fuel (sha256Compress h (l.take 64)) (l.drop 64)

/-- Serializes eight hash words to the 32 output bytes, big-endian. -/
def wordsToBytes : List Nat → List Nat
  | [] => []
  | w :: rest =>
    w / 2 ^ 24 % 256 :: w / 2 ^ 16 % 256 :: w / 2 ^ 8 % 256 :: w % 256 ::
      wordsToBytes rest

/-- SHA-256 of a byte list. -/
def sha256 (msg : List Nat) : List Nat :=
  let padded := sha256Pad msg
  wordsToBytes (sha256Blocks padded.length sha256H0 padded)

/-- HMAC-SHA256 (RFC 2104) with the SHA-256 block size of 64 bytes; models
Go's `hmac.New(sha256.New, key)` followed by `Write`/`Sum`. -/
def hmacSha256 (key msg : List Nat) : List Nat :=
  let k0 := if key.length > 64 then sha256 key else key
  let k := k0 ++ List.replicate (64 - k0.length) 0
  let ipad := k.map (fun b => b ^^^ 0x36)
  let opad := k.map (fun b => b ^^^ 0x5c)
  sha256 (opad ++ sha256 (ipad ++ msg))

/-! ## URL-safe base64 (RFC 4648 section 5), as Go's `base64.URLEncoding` -/

/-- The URL-safe base64 alphabet. -/
def b64Alphabet : List Char :=
  "ABCDEFGHIJKLMNOPQRSTUVWXYZabcdefghijklmnopqrstuvwxyz0123456789-_".data

/-- Character for a 6-bit value. -/
def b64EncChar (n : Nat) : Char := b64Alphabet.getD n 'A'

/-- 6-bit value of an alphabet character, `none` for anything else
(including the pad character). -/
def b64DecChar (c : Char) : Option Nat := b64Alphabet.findIdx? (fun a => a == c)

/-- Padded URL-safe base64 encoding of a byte list, three bytes to four
characters (what Go's `base64.NewEncoder` plus `Close` emits). -/
def b64EncodeChars : List Nat → List Char
  | [] => []
  | [a] => [b64EncChar (a / 4), b64EncChar (a % 4 * 16), '=', '=']
  | [a, b] =>
    [b64EncChar (a / 4), b64EncChar (a % 4 * 16 + b / 16),
     b64EncChar (b % 16 * 4), '=']
  | a :: b :: c :: rest =>
    b64EncChar (a / 4) :: b64EncChar (a % 4 * 16 + b / 16) ::
      b64EncChar (b % 16 * 4 + c / 64) :: b64EncChar (c % 64) ::
      b64EncodeChars rest

/-- URL-safe base64 decoding (Go's non-strict decoder: four-character groups,
padding only at the end, unused trailing bits ignored, anything else an
error, and a trailing group of fewer than four characters an error). -/
def b64DecodeChars : List Char → Option (List Nat)
  | [] => some []
  | c1 :: c2 :: c3 :: c4 :: rest =>
    (b64DecChar c1).bind fun d1 =>
    (b64DecChar c2).bind fun d2 =>
      if c3 = '=' then
        if c4 = '=' ∧ rest = [] then some [d1 * 4 + d2 / 16] else none
      else
        (b64DecChar c3).bind fun d3 =>
          if c4 = '=' then
            if rest = [] then some [d1 * 4 + d2 / 16, d2 % 16 * 16 + d3 / 4]
            else none
          else
            (b64DecChar c4).bind fun d4 =>
              (b64DecodeChars rest).map fun bs =>
                (d1 * 4 + d2 / 16) :: (d2 % 16 * 16 + d3 / 4) ::
                  (d3 % 4 * 64 + d4) :: bs
  | _ => none

/-- String-valued base64 encoding. -/
def b64Encode (l : List Nat) : String := String.mk (b64EncodeChars l)

/-- String-consuming base64 decoding. -/
def b64Decode (s : String) : Option (List Nat) := b64DecodeChars s.data

/-! ## Hexadecimal, as Go's `encoding/hex` -/

/-- The lowercase hex digits, as `hex.EncodeToString` emits them. -/
def hexDigits : List Char := "0123456789abcdef".data

/-- The uppercase hex letters, accepted by the decoder only. -/
def hexUpper : List Char := "ABCDEF".data

/-- Character for a 4-bit value, lowercase. -/
def hexEncChar (n : Nat) : Char := hexDigits.getD n '0'

/-- Value of a hex digit; accepts both cases (Go's `fromHexChar`). -/
def hexDecChar (c : Char) : Option Nat :=
  match hexDigits.findIdx? (fun a => a == c) with
  | some n => some n
  | none => (hexUpper.findIdx? (fun a => a == c)).map (fun n => n + 10)

/-- Lowercase hex encoding, two characters per byte. -/
def hexEncodeChars : List Nat → List Char
  | [] => []
  | b :: rest => hexEncChar (b / 16) :: hexEncChar (b % 16) :: hexEncodeChars rest

/-- Hex decoding: an odd-length or non-hex input is an error. -/
def hexDecodeChars : List Char → Option (List Nat)
  | [] => some []
  | [_] => none
  | c1 :: c2 :: rest =>
    (hexDecChar c1).bind fun d1 =>
    (hexDecChar c2).bind fun d2 =>
      (hexDecodeChars rest).map fun bs => (d1 * 16 + d2) :: bs

/-- Strips one leading `0x`, as `strings.TrimPrefix(s, "0x")` does. -/
def trimPrefix0x : List Char → List Char
  | '0' :: 'x' :: rest => rest
  | l => l

/-! ## Constant-time comparison (Go's `hmac.Equal` via
`subtle.ConstantTimeCompare`) -/

/-- Constant-time byte-string equality: on equal lengths, OR together the
XOR of every byte pair — the loop never exits early — and test the
accumulator against zero; on unequal lengths, unequal. -/
def constantTimeCompare (x y : List Nat) : Bool :=
  if x.length = y.length then
    ((x.zip y).foldl (fun v p => v ||| (p.1 ^^^ p.2)) 0) == 0
  else false

/-- The same loop instrumented with a count of byte operations performed,
to state the timing property: the count is the full common length on every
input of those lengths, matched or not. -/
def constantTimeCompareInstr (x y : List Nat) : Bool × Nat :=
  if x.length = y.length then
    let r := (x.zip y).foldl (fun acc p => (acc.1 ||| (p.1 ^^^ p.2), acc.2 + 1))
      ((0 : Nat), (0 : Nat))
    (r.1 == 0, r.2)
  else (false, 0)

/-- Models `hmac.Equal(mac1, mac2)`. -/
def hmacEqual (x y : List Nat) : Bool := constantTimeCompare x y

/-! ## Data model (the `pb` messages, as plain immutable values) -/

/-- The inner, authenticated payload: `pb.Credential`. The `node_id` bytes,
the operator-type enum value, and the Unix-seconds timestamp. -/
structure Credential where
  nodeId : List Nat
  timestamp : Int
  operatorType : Nat
  deriving DecidableEq, Repr

/-- The outer envelope: `pb.AuthenticatedCredential`. In Go the inner
message is a pointer that may be nil, modelled by `Option`. -/
structure AuthenticatedCredential where
  credential : Option Credential
  mac : List Nat
  deriving DecidableEq, Repr

/-- The zero value of the outer message, as after `Reset()`. -/
def defaultAC : AuthenticatedCredential := ⟨none, []⟩

/-! ## Protobuf wire codec for the two messages

Modelled from the spec: the generated `pb` package (the `.proto` schema and
`proto.Marshal`/`proto.Unmarshal`/`proto.Merge` behaviour on these two
messages) is not under `src/`. The spec fixes a deterministic, tag-based
self-describing binary format: `Credential` with fields `node_id` (bytes),
`timestamp` (int64) and `operator_type` (enum), wrapped by
`AuthenticatedCredential` adding `credential` (message) and `mac` (bytes).
We model proto3 canonical marshalling: fields in field-number order
(`node_id` = 1, `timestamp` = 2, `operator_type` = 3; `credential` = 1,
`mac` = 2), zero-valued scalar fields omitted, a present (non-nil) inner
message always emitted. -/

/-- Canonical wire encoding of the inner `Credential` (proto3 marshal). -/
def protoMarshalCredential (c : Credential) : List Nat :=
  (if c.nodeId = [] then []
   else 0x0a :: varintEnc c.nodeId.length ++ c.nodeId) ++
  (if c.timestamp = 0 then []
   else 0x10 :: varintEnc (uint64OfInt c.timestamp)) ++
  (if c.operatorType = 0 then []
   else 0x18 :: varintEnc c.operatorType)

/-- Marshalling through a possibly-nil message pointer: `proto.Marshal` of a
nil message yields the empty byte string without error. -/
def protoMarshalCredentialOpt : Option Credential → List Nat
  | none => []
  | some c => protoMarshalCredential c

/-- Canonical wire encoding of the outer `AuthenticatedCredential`. -/
def protoMarshalAC (ac : AuthenticatedCredential) : List Nat :=
  (match ac.credential with
   | none => []
   | some c =>
     let p := protoMarshalCredential c
     0x0a :: varintEnc p.length ++ p) ++
  (if ac.mac = [] then [] else 0x12 :: varintEnc ac.mac.length ++ ac.mac)

/-- Field-wise proto3 merge of a source `Credential` into a destination:
non-default source scalars overwrite. -/
def mergeCredential (dst src : Credential) : Credential :=
  ⟨if src.nodeId = [] then dst.nodeId else src.nodeId,
   if src.timestamp = 0 then dst.timestamp else src.timestamp,
   if src.operatorType = 0 then dst.operatorType else src.operatorType⟩

/-- Merge through possibly-nil message pointers: a nil source leaves the
destination, a nil destination receives a copy of the source. -/
def mergeCredentialOpt : Option Credential → Option Credential → Option Credential
  | dst, none => dst
  | none, some s => some s
  | some d, some s => some (mergeCredential d s)

/-- `proto.Merge` on the outer message. -/
def mergeAC (dst src : AuthenticatedCredential) : AuthenticatedCredential :=
  ⟨mergeCredentialOpt dst.credential src.credential,
   if src.mac = [] then dst.mac else src.mac⟩

/-- Skips the body of one field of the given wire type, as an unmarshaller
does for an unknown field; groups and invalid wire types are errors. -/
def skipField (wt : Nat) (l : List Nat) : Option (List Nat) :=
  match wt with
  | 0 => (varintDec l).map (fun p => p.2)
  | 1 => (takeN 8 l).map (fun p => p.2)
  | 2 => (varintDec l).bind fun p => (takeN p.1 p.2).map (fun q => q.2)
  | 5 => (takeN 4 l).map (fun p => p.2)
  | _ => none

/-- Unmarshal loop for the inner `Credential`: reads tag varints, dispatches
on field number and wire type, last value wins, unknown fields skipped;
`fuel` dominates the byte count so it never runs out on real input. -/
def parseCredLoop : Nat → Credential → List Nat → Option Credential
  | _, c, [] => some c
  | 0, _, _ :: _ => none
  | fuel + 1, c, l =>
    (varintDec l).bind fun (tag, r) =>
      let field := tag / 8
      let wt := tag % 8
      if field = 0 then none
      else if field = 1 ∧ wt = 2 then
        (varintDec r).bind fun (n, r2) =>
          (takeN n r2).bind fun (bs, r3) =>
            parseCredLoop fuel { c with nodeId := bs } r3
      else if field = 2 ∧ wt = 0 then
        (varintDec r).bind fun (v, r2) =>
          parseCredLoop fuel { c with timestamp := intOfUint64 v } r2
      else if field = 3 ∧ wt = 0 then
        (varintDec r).bind fun (v, r2) =>
          parseCredLoop fuel { c with operatorType := v % 2 ^ 32 } r2
      else
        (skipField wt r).bind (parseCredLoop fuel c)

/-- `proto.Unmarshal` into a fresh `Credential`. -/
def parseCredential (l : List Nat) : Option Credential :=
  parseCredLoop (l.length + 1) ⟨[], 0, 0⟩ l

/-- Unmarshal loop for the outer `AuthenticatedCredential`: a `credential`
field is parsed recursively and merged into the message built so far. -/
def parseACLoop : Nat → AuthenticatedCredential → List Nat →
    Option AuthenticatedCredential
  | _, st, [] => some st
  | 0, _, _ :: _ => none
  | fuel + 1, st, l =>
    (varintDec l).bind fun (tag, r) =>
      let field := tag / 8
      let wt := tag % 8
      if field = 0 then none
      else if field = 1 ∧ wt = 2 then
        (varintDec r).bind fun (n, r2) =>
          (takeN n r2).bind fun (bs, r3) =>
            (parseCredential bs).bind fun c =>
              parseACLoop fuel ⟨mergeCredentialOpt st.credential (some c), st.mac⟩ r3
      else if field = 2 ∧ wt = 2 then
        (varintDec r).bind fun (n, r2) =>
          (takeN n r2).bind fun (bs, r3) =>
            parseACLoop fuel ⟨st.credential, bs⟩ r3
      else
        (skipField wt r).bind (parseACLoop fuel st)

/-- `proto.Unmarshal` into a fresh `AuthenticatedCredential`. -/
def parseAC (l : List Nat) : Option AuthenticatedCredential :=
  parseACLoop (l.length + 1) defaultAC l

/-! ## Errors and outcomes -/

/-- The error values the package can return, one constructor per `error`
construction site in `src/credentials.go` (plus the decode-layer errors of
the Go standard libraries it calls). -/
inductive GoError where
  /-- `fmt.Errorf("invalid nodeID length. Expected 20, got %d", n)`. -/
  | invalidInputLength (n : Nat)
  /-- `errors.Wrap(err, "Error serializing HMAC protobuf body")`. -/
  | serializeWrap (msg : String)
  /-- `errors.New("Couldn't retrieve available hash from pool")`; the typed
  pool of the model cannot produce it, the constructor keeps the site. -/
  | poolTypeAssertion
  /-- `errors.Wrap(err, "Error while re-creating the MAC")`. -/
  | recreateWrap (e : GoError)
  /-- `errors.New("credential MAC mismatch")`. -/
  | macMismatch
  /-- a base64 `CorruptInputError` or unexpected end of input. -/
  | base64Decode
  /-- a hex decoding error (bad digit or odd length). -/
  | hexDecode
  /-- a `proto.Unmarshal` failure on a malformed wire payload. -/
  | protoParse
  deriving DecidableEq, Repr

/-- Outcome of `Base64URLDecode`: a reconstructed value, a returned error,
or a Go runtime panic (nil-pointer dereference). -/
inductive DecodeOutcome where
  | ok (ac : AuthenticatedCredential)
  | err (e : GoError)
  | nilPanic
  deriving DecidableEq, Repr

/-! ## Credential manager (key plus `sync.Pool` of keyed HMAC contexts) -/

/-- One pooled `hash.Hash`: the HMAC state is determined by its key and the
bytes written since the last reset. -/
structure HmacCtx where
  key : List Nat
  buf : List Nat
  deriving DecidableEq, Repr

/-- `CredentialManager`: the secret key (captured by the pool's `New`
closure) and the current pool contents. -/
structure CredentialManager where
  key : List Nat
  pool : List HmacCtx
  deriving DecidableEq, Repr

/-- `NewCredentialManager(key)`: an empty pool whose `New` returns
`hmac.New(sha256.New, key)`. -/
def newCredentialManager (key : List Nat) : CredentialManager := ⟨key, []⟩

/-- `Pool.Get`: take a pooled context if one exists, otherwise call `New`. -/
def poolGet (m : CredentialManager) : HmacCtx × CredentialManager :=
  match m.pool with
  | [] => (⟨m.key, []⟩, m)
  | c :: rest => (c, ⟨m.key, rest⟩)

/-- `Pool.Put`. -/
def poolPut (m : CredentialManager) (c : HmacCtx) : CredentialManager :=
  ⟨m.key, c :: m.pool⟩

/-- `h.Write(bytes)` on a pooled context. -/
def ctxWrite (c : HmacCtx) (bs : List Nat) : HmacCtx := ⟨c.key, c.buf ++ bs⟩

/-- `h.Sum(nil)`: the HMAC of everything written since the last reset. -/
def ctxSum (c : HmacCtx) : List Nat := hmacSha256 c.key c.buf

/-- `h.Reset()`. -/
def ctxReset (c : HmacCtx) : HmacCtx := ⟨c.key, []⟩

/-- The pool hygiene invariant the code maintains: every pooled context is
keyed with the manager's key and has been reset (no pending bytes). -/
def managerInv (m : CredentialManager) : Prop :=
  ∀ ctx ∈ m.pool, ctx.key = m.key ∧ ctx.buf = []

instance (m : CredentialManager) : Decidable (managerInv m) :=
  inferInstanceAs (Decidable (∀ ctx ∈ m.pool, ctx.key = m.key ∧ ctx.buf = []))

/-- A marshal oracle stands for the call `proto.Marshal(credential.Credential)`,
whose Go signature may fail; the code's actual behaviour is `realMarshal`. -/
def MarshalOracle : Type := Option Credential → Except String (List Nat)

/-- The behaviour of `proto.Marshal` on these messages: total, canonical. -/
def realMarshal : MarshalOracle := fun c => .ok (protoMarshalCredentialOpt c)

/-- `authenticateCredential`, parameterized by the marshal oracle: serialize
the inner message alone, take a context from the pool, write the bytes, set
`credential.Mac` to the sum, reset the context and return it to the pool.
State-passing renders the in-place `credential.Mac = ...` write and the
pool mutation. -/
def authenticateCredentialWith (mo : MarshalOracle) (m : CredentialManager)
    (cred : AuthenticatedCredential) :
    Except GoError AuthenticatedCredential × CredentialManager :=
  match mo cred.credential with
  | .error e => (.error (.serializeWrap e), m)
  | .ok bytes =>
    let hm := poolGet m
    let h1 := ctxWrite hm.1 bytes
    let mac := ctxSum h1
    let m2 := poolPut hm.2 (ctxReset h1)
    (.ok { cred with mac := mac }, m2)

/-- `authenticateCredential` as the code runs it. -/
def authenticateCredential (m : CredentialManager)
    (cred : AuthenticatedCredential) :
    Except GoError AuthenticatedCredential × CredentialManager :=
  authenticateCredentialWith realMarshal m cred

/-- `Create(timestamp, nodeID, operatorType)`: reject a `nodeID` whose
length is not 20 before touching the pool, otherwise build the inner
credential from the Unix seconds of the timestamp and authenticate it.
`ts` is `timestamp.Unix()`. -/
def create (m : CredentialManager) (ts : Int) (nodeId : List Nat)
    (operatorType : Nat) :
    Except GoError AuthenticatedCredential × CredentialManager :=
  if nodeId.length ≠ 20 then (.error (.invalidInputLength nodeId.length), m)
  else
    match authenticateCredential m ⟨some ⟨nodeId, ts, operatorType⟩, []⟩ with
    | (.error e, m1) => (.error e, m1)
    | (.ok ac, m1) => (.ok ac, m1)

/-- `Verify`, parameterized by the marshal oracle: borrow the inner message
into a temporary envelope, recompute its MAC, and compare with `hmac.Equal`.
The final component is the caller's credential as it stands after the call
(the code writes only `tmp.Mac`, never through the argument). -/
def verifyWith (mo : MarshalOracle) (m : CredentialManager)
    (ac : AuthenticatedCredential) :
    Except GoError Unit × CredentialManager × AuthenticatedCredential :=
  let tmp : AuthenticatedCredential := ⟨ac.credential, []⟩
  match authenticateCredentialWith mo m tmp with
  | (.error e, m1) => (.error (.recreateWrap e), m1, ac)
  | (.ok tmp1, m1) =>
    if hmacEqual tmp1.mac ac.mac then (.ok (), m1, ac)
    else (.error .macMismatch, m1, ac)

/-- `Verify` as the code runs it. -/
def verify (m : CredentialManager) (ac : AuthenticatedCredential) :
    Except GoError Unit × CredentialManager × AuthenticatedCredential :=
  verifyWith realMarshal m ac

/-! ## Token-pair and JSON codecs -/

/-- `Base64URLEncodeUsername`: base64url of the raw `node_id` bytes.
`none` models the Go panic when the inner message pointer is nil (the code
reads `ac.Credential.NodeId` unconditionally). -/
def base64URLEncodeUsername (ac : AuthenticatedCredential) : Option String :=
  match ac.credential with
  | none => none
  | some c => some (b64Encode c.nodeId)

/-- A marshal oracle for the call `proto.Marshal(ac.Pb())` on the outer
message; the code's actual behaviour is `realACMarshal`. -/
def ACMarshalOracle : Type := AuthenticatedCredential → Except String (List Nat)

/-- The behaviour of `proto.Marshal` on the outer message: total, canonical. -/
def realACMarshal : ACMarshalOracle := fun ac => .ok (protoMarshalAC ac)

/-- `Base64URLEncodePassword`, parameterized by the marshal oracle and
rendered state-passing: save the `node_id`, blank it, marshal the outer
message, and — only on the success path, as in the source — restore the
`node_id` before base64url-encoding the marshaled bytes. The second
component is the credential as the caller sees it afterwards; `none` models
the panic on a nil inner message. -/
def base64URLEncodePasswordWith (mo : ACMarshalOracle)
    (ac : AuthenticatedCredential) :
    Option (Except String String × AuthenticatedCredential) :=
  match ac.credential with
  | none => none
  | some c =>
    let blanked : AuthenticatedCredential := ⟨some { c with nodeId := [] }, ac.mac⟩
    match mo blanked with
    | .error e => some (.error e, blanked)
    | .ok marshaled =>
      some (.ok (b64Encode marshaled), ⟨some { c with nodeId := c.nodeId }, ac.mac⟩)

/-- `Base64URLEncodePassword` as the code runs it. -/
def base64URLEncodePassword (ac : AuthenticatedCredential) :
    Option (Except String String × AuthenticatedCredential) :=
  base64URLEncodePasswordWith realACMarshal ac

/-- `Base64URLDecode(username, password)`: base64url-decode both parts,
unmarshal the password payload, reset the receiver and merge the parsed
message into it, then write the decoded `node_id` through
`ac.Credential.NodeId` — a nil dereference when the payload carried no
inner message. -/
def base64URLDecode (username password : String) : DecodeOutcome :=
  match b64Decode username with
  | none => .err .base64Decode
  | some nodeId =>
    match b64Decode password with
    | none => .err .base64Decode
    | some decoded =>
      match parseAC decoded with
      | none => .err .protoParse
      | some newCred =>
        let merged := mergeAC defaultAC newCred
        match merged.credential with
        | none => .nilPanic
        | some c => .ok ⟨some { c with nodeId := nodeId }, merged.mac⟩

/-- The intermediate JSON document `jsonAuthenticatedCredential`: the four
fields exactly as Go's `encoding/json` would read and write them (the
struct-to-text step of `encoding/json` on this flat struct is an external
bijection and is not re-modelled). -/
structure JsonAC where
  nodeId : List Char
  timestamp : Int
  operatorType : Nat
  mac : List Char
  deriving DecidableEq, Repr

/-- `MarshalJSON` field construction: `node_id` as `0x`-prefixed lowercase
hex, `timestamp` and `operator_type` copied, `mac` base64url-encoded.
`none` models the panic on a nil inner message. -/
def marshalJSONFields (ac : AuthenticatedCredential) : Option JsonAC :=
  match ac.credential with
  | none => none
  | some c =>
    some ⟨'0' :: 'x' :: hexEncodeChars c.nodeId, c.timestamp, c.operatorType,
      b64EncodeChars ac.mac⟩

/-- `UnmarshalJSON` field reconstruction, in source order: base64url-decode
`mac`, hex-decode `node_id` after `strings.TrimPrefix(_, "0x")`, rebuild the
message. -/
def unmarshalJSONFields (j : JsonAC) : Except GoError AuthenticatedCredential :=
  match b64DecodeChars j.mac with
  | none => .error .base64Decode
  | some mac =>
    match hexDecodeChars (trimPrefix0x j.nodeId) with
    | none => .error .hexDecode
    | some nodeId =>
      .ok ⟨some ⟨nodeId, j.timestamp, j.operatorType⟩, mac⟩

/-- Validity of an inner credential for the codec round-trip laws: byte
values in range, field values within their wire types. -/
def validCredential (c : Credential) : Prop :=
  (∀ b ∈ c.nodeId, b < 256) ∧ c.nodeId.length < 2 ^ 32 ∧
    -(2 ^ 63) ≤ c.timestamp ∧ c.timestamp < 2 ^ 63 ∧ c.operatorType < 2 ^ 31

instance (c : Credential) : Decidable (validCredential c) := by
  unfold validCredential; infer_instance

/-- Validity of a full authenticated credential whose inner message is `c`:
a present inner message with valid fields and in-range MAC bytes. -/
def validAC (ac : AuthenticatedCredential) (c : Credential) : Prop :=
  ac.credential = some c ∧ validCredential c ∧
    (∀ b ∈ ac.mac, b < 256) ∧ ac.mac.length < 2 ^ 32

instance (ac : AuthenticatedCredential) (c : Credential) :
    Decidable (validAC ac c) := by
  unfold validAC; infer_instance

/-! ## Lemmas: varint -/

theorem varintEnc_byte_lt (n : Nat) : ∀ b ∈ varintEnc n, b < 256 := by
  induction n using Nat.strong_induction_on with
  | _ n ih =>
    rw [varintEnc.eq_def]
    split
    · intro b hb
      simp only [List.mem_singleton] at hb
      omega
    · rename_i h
      intro b hb
      rcases List.mem_cons.mp hb with rfl | hb
      · omega
      · exact ih (n / 128) (Nat.div_lt_self (by omega) (by omega)) b hb

theorem varintEnc_ne_nil (n : Nat) : varintEnc n ≠ [] := by
  rw [varintEnc.eq_def]
  split <;> simp

theorem varintEnc_length_le (k : Nat) :
    ∀ n, n < 128 ^ (k + 1) → (varintEnc n).length ≤ k + 1 := by
  induction k with
  | zero =>
    intro n hn
    rw [varintEnc.eq_def]
    split
    · simp
    · omega
  | succ k ih =>
    intro n hn
    rw [varintEnc.eq_def]
    split
    · simp
    · rename_i h
      have hdiv : n / 128 < 128 ^ (k + 1) := by
        rw [Nat.div_lt_iff_lt_mul (by omega)]
        calc n < 128 ^ (k + 1 + 1) := hn
        _ = 128 ^ (k + 1) * 128 := by ring
      simpa using Nat.succ_le_succ (ih (n / 128) hdiv)

theorem varintDecAux_enc :
    ∀ fuel n rest, n < 128 ^ (fuel + 1) →
      varintDecAux (fuel + 1) (varintEnc n ++ rest) = some (n, rest) := by
  intro fuel
  induction fuel with
  | zero =>
    intro n rest hn
    have h128 : n < 128 := by simpa using hn
    rw [varintEnc.eq_def, dif_pos h128]
    simp [varintDecAux, h128]
  | succ fuel ih =>
    intro n rest hn
    rw [varintEnc.eq_def]
    split
    · rename_i h
      simp [varintDecAux, h]
    · rename_i h
      have hdiv : n / 128 < 128 ^ (fuel + 1) := by
        rw [Nat.div_lt_iff_lt_mul (by omega)]
        calc n < 128 ^ (fuel + 1 + 1) := hn
          _ = 128 ^ (fuel + 1) * 128 := by ring
      have hb : ¬ (n % 128 + 128 < 128) := by omega
      have harith : n % 128 + 128 - 128 + 128 * (n / 128) = n := by omega
      simp [varintDecAux, hb, ih (n / 128) rest hdiv, harith]
      omega

theorem varintDec_enc (n : Nat) (rest : List Nat) (hn : n < 2 ^ 64) :
    varintDec (varintEnc n ++ rest) = some (n, rest) := by
  have h : n < 128 ^ (9 + 1) := by
    calc n < 2 ^ 64 := hn
      _ ≤ 128 ^ 10 := by norm_num
  rw [varintDec, varintDecAux_enc 9 n rest h]
  simp
  omega

theorem varintDec_cons_small (b : Nat) (rest : List Nat) (hb : b < 128) :
    varintDec (b :: rest) = some (b, rest) := by
  rw [varintDec]
  simp [varintDecAux, hb]
  omega

/-! ## Lemmas: takeN, int64 -/

theorem takeN_append (l r : List Nat) : takeN l.length (l ++ r) = some (l, r) := by
  rw [takeN, if_pos (by simp)]
  simp

theorem uint64OfInt_lt (t : Int) : uint64OfInt t < 2 ^ 64 := by
  rw [uint64OfInt]
  omega

theorem intOfUint64_uint64OfInt (t : Int) (h1 : -(2 ^ 63) ≤ t)
    (h2 : t < 2 ^ 63) : intOfUint64 (uint64OfInt t) = t := by
  rw [uint64OfInt, intOfUint64]
  split <;> rename_i h <;> omega

/-! ## Lemmas: base64 and hex round-trips -/

theorem b64DecChar_encChar : ∀ n, n < 64 → b64DecChar (b64EncChar n) = some n := by
  decide

theorem b64EncChar_ne_pad : ∀ n, n < 64 → b64EncChar n ≠ '=' := by
  decide

theorem b64_roundtrip :
    ∀ l, (∀ b ∈ l, b < 256) → b64DecodeChars (b64EncodeChars l) = some l := by
  intro l
  induction l using b64EncodeChars.induct with
  | case1 =>
    intro _
    simp [b64EncodeChars, b64DecodeChars]
  | case2 a =>
    intro h
    have ha : a < 256 := h a (by simp)
    have h1 : a / 4 < 64 := by omega
    have h2 : a % 4 * 16 < 64 := by omega
    simp [b64EncodeChars, b64DecodeChars, b64DecChar_encChar _ h1,
      b64DecChar_encChar _ h2]
    omega
  | case3 a b =>
    intro h
    have ha : a < 256 := h a (by simp)
    have hb : b < 256 := h b (by simp)
    have h1 : a / 4 < 64 := by omega
    have h2 : a % 4 * 16 + b / 16 < 64 := by omega
    have h3 : b % 16 * 4 < 64 := by omega
    simp [b64EncodeChars, b64DecodeChars, b64DecChar_encChar _ h1,
      b64DecChar_encChar _ h2, b64DecChar_encChar _ h3,
      b64EncChar_ne_pad _ h3]
    omega
  | case4 a b c rest ih =>
    intro h
    have ha : a < 256 := h a (by simp)
    have hb : b < 256 := h b (by simp)
    have hc : c < 256 := h c (by simp)
    have h1 : a / 4 < 64 := by omega
    have h2 : a % 4 * 16 + b / 16 < 64 := by omega
    have h3 : b % 16 * 4 + c / 64 < 64 := by omega
    have h4 : c % 64 < 64 := by omega
    have hrest : ∀ x ∈ rest, x < 256 := fun x hx => h x (by simp [hx])
    simp [b64EncodeChars, b64DecodeChars, b64DecChar_encChar _ h1,
      b64DecChar_encChar _ h2, b64DecChar_encChar _ h3,
      b64DecChar_encChar _ h4, b64EncChar_ne_pad _ h3,
      b64EncChar_ne_pad _ h4, ih hrest]
    omega

theorem b64Decode_b64Encode (l : List Nat) (h : ∀ b ∈ l, b < 256) :
    b64Decode (b64Encode l) = some l := by
  rw [b64Encode, b64Decode]
  exact b64_roundtrip l h

theorem hexDecChar_encChar : ∀ n, n < 16 → hexDecChar (hexEncChar n) = some n := by
  decide

theorem hex_roundtrip :
    ∀ l, (∀ b ∈ l, b < 256) → hexDecodeChars (hexEncodeChars l) = some l := by
  intro l
  induction l with
  | nil =>
    intro _
    simp [hexEncodeChars, hexDecodeChars]
  | cons b rest ih =>
    intro h
    have hb : b < 256 := h b (by simp)
    have h1 : b / 16 < 16 := by omega
    have h2 : b % 16 < 16 := by omega
    have hrest : ∀ x ∈ rest, x < 256 := fun x hx => h x (by simp [hx])
    simp [hexEncodeChars, hexDecodeChars, hexDecChar_encChar _ h1,
      hexDecChar_encChar _ h2, ih hrest]
    omega

theorem trimPrefix0x_prefixed (l : List Char) :
    trimPrefix0x ('0' :: 'x' :: l) = l := rfl

/-! ## Lemmas: protobuf wire codec round-trip -/

theorem varintEnc_length_pos (n : Nat) : 0 < (varintEnc n).length :=
  List.length_pos.mpr (varintEnc_ne_nil n)

theorem protoMarshalCredential_byte_lt (c : Credential)
    (hb : ∀ b ∈ c.nodeId, b < 256) :
    ∀ b ∈ protoMarshalCredential c, b < 256 := by
  intro b hbmem
  rw [protoMarshalCredential] at hbmem
  simp only [List.mem_append] at hbmem
  rcases hbmem with (h | h) | h
  · split at h
    · simp at h
    · rcases List.mem_cons.mp h with rfl | h
      · omega
      · rcases List.mem_append.mp h with h | h
        · exact varintEnc_byte_lt _ b h
        · exact hb b h
  · split at h
    · simp at h
    · rcases List.mem_cons.mp h with rfl | h
      · omega
      · exact varintEnc_byte_lt _ b h
  · split at h
    · simp at h
    · rcases List.mem_cons.mp h with rfl | h
      · omega
      · exact varintEnc_byte_lt _ b h

theorem protoMarshalAC_byte_lt (ac : AuthenticatedCredential)
    (hc : ∀ c, ac.credential = some c → ∀ b ∈ c.nodeId, b < 256)
    (hm : ∀ b ∈ ac.mac, b < 256) :
    ∀ b ∈ protoMarshalAC ac, b < 256 := by
  intro b hbmem
  rw [protoMarshalAC] at hbmem
  rcases List.mem_append.mp hbmem with h | h
  · match hcr : ac.credential with
    | none => rw [hcr] at h; simp at h
    | some c =>
      rw [hcr] at h
      simp only at h
      rcases List.mem_cons.mp h with rfl | h
      · omega
      · rcases List.mem_append.mp h with h | h
        · exact varintEnc_byte_lt _ b h
        · exact protoMarshalCredential_byte_lt c (hc c hcr) b h
  · split at h
    · simp at h
    · rcases List.mem_cons.mp h with rfl | h
      · omega
      · rcases List.mem_append.mp h with h | h
        · exact varintEnc_byte_lt _ b h
        · exact hm b h

theorem protoMarshalCredential_length_lt (c : Credential)
    (h : validCredential c) : (protoMarshalCredential c).length < 2 ^ 64 := by
  obtain ⟨_, hlen, _, _, hop⟩ := h
  have h1 : (varintEnc c.nodeId.length).length ≤ 5 := by
    apply varintEnc_length_le 4
    norm_num
    omega
  have h2 : (varintEnc (uint64OfInt c.timestamp)).length ≤ 10 := by
    apply varintEnc_length_le 9
    have := uint64OfInt_lt c.timestamp
    norm_num
    omega
  have h3 : (varintEnc c.operatorType).length ≤ 5 := by
    apply varintEnc_length_le 4
    norm_num
    omega
  rw [protoMarshalCredential]
  simp only [List.length_append]
  have e1 : (if c.nodeId = [] then ([] : List Nat)
      else 0x0a :: varintEnc c.nodeId.length ++ c.nodeId).length ≤
      6 + c.nodeId.length := by
    split
    · simp
    · simp only [List.length_cons, List.length_append]
      omega
  have e2 : (if c.timestamp = 0 then ([] : List Nat)
      else 0x10 :: varintEnc (uint64OfInt c.timestamp)).length ≤ 11 := by
    split
    · simp
    · simp only [List.length_cons]
      omega
  have e3 : (if c.operatorType = 0 then ([] : List Nat)
      else 0x18 :: varintEnc c.operatorType).length ≤ 6 := by
    split
    · simp
    · simp only [List.length_cons]
      omega
  omega

theorem parseCredLoop_nil (fuel : Nat) (c : Credential) :
    parseCredLoop fuel c [] = some c := by
  cases fuel <;> rfl

theorem parseCredLoop_field1 (fuel : Nat) (c : Credential) (bs rest : List Nat)
    (hlen : bs.length < 2 ^ 64) (hfuel : 1 ≤ fuel) :
    parseCredLoop fuel c (0x0a :: (varintEnc bs.length ++ (bs ++ rest))) =
      parseCredLoop (fuel - 1) { c with nodeId := bs } rest := by
  obtain ⟨k, rfl⟩ : ∃ k, fuel = k + 1 := ⟨fuel - 1, by omega⟩
  have ht : varintDec (0x0a :: (varintEnc bs.length ++ (bs ++ rest))) =
      some (10, varintEnc bs.length ++ (bs ++ rest)) :=
    varintDec_cons_small 10 _ (by omega)
  have hv : varintDec (varintEnc bs.length ++ (bs ++ rest)) =
      some (bs.length, bs ++ rest) := varintDec_enc _ _ hlen
  simp [parseCredLoop, ht, hv, takeN_append]

theorem parseCredLoop_field2 (fuel : Nat) (c : Credential) (v : Nat)
    (rest : List Nat) (hv : v < 2 ^ 64) (hfuel : 1 ≤ fuel) :
    parseCredLoop fuel c (0x10 :: (varintEnc v ++ rest)) =
      parseCredLoop (fuel - 1) { c with timestamp := intOfUint64 v } rest := by
  obtain ⟨k, rfl⟩ : ∃ k, fuel = k + 1 := ⟨fuel - 1, by omega⟩
  have ht : varintDec (0x10 :: (varintEnc v ++ rest)) =
      some (16, varintEnc v ++ rest) := varintDec_cons_small 16 _ (by omega)
  have hvv : varintDec (varintEnc v ++ rest) = some (v, rest) :=
    varintDec_enc _ _ hv
  simp [parseCredLoop, ht, hvv]

theorem parseCredLoop_field3 (fuel : Nat) (c : Credential) (v : Nat)
    (rest : List Nat) (hv : v < 2 ^ 64) (hfuel : 1 ≤ fuel) :
    parseCredLoop fuel c (0x18 :: (varintEnc v ++ rest)) =
      parseCredLoop (fuel - 1) { c with operatorType := v % 2 ^ 32 } rest := by
  obtain ⟨k, rfl⟩ : ∃ k, fuel = k + 1 := ⟨fuel - 1, by omega⟩
  have ht : varintDec (0x18 :: (varintEnc v ++ rest)) =
      some (24, varintEnc v ++ rest) := varintDec_cons_small 24 _ (by omega)
  have hvv : varintDec (varintEnc v ++ rest) = some (v, rest) :=
    varintDec_enc _ _ hv
  simp [parseCredLoop, ht, hvv]

theorem parseCredLoop_field1_last (fuel : Nat) (c : Credential) (bs : List Nat)
    (hlen : bs.length < 2 ^ 64) (hfuel : 1 ≤ fuel) :
    parseCredLoop fuel c (0x0a :: (varintEnc bs.length ++ bs)) =
      some { c with nodeId := bs } := by
  have e : (0x0a : Nat) :: (varintEnc bs.length ++ bs) =
      0x0a :: (varintEnc bs.length ++ (bs ++ [])) := by simp
  rw [e, parseCredLoop_field1 fuel c bs [] hlen hfuel, parseCredLoop_nil]

theorem parseCredLoop_field2_last (fuel : Nat) (c : Credential) (v : Nat)
    (hv : v < 2 ^ 64) (hfuel : 1 ≤ fuel) :
    parseCredLoop fuel c (0x10 :: varintEnc v) =
      some { c with timestamp := intOfUint64 v } := by
  have e : (0x10 : Nat) :: varintEnc v = 0x10 :: (varintEnc v ++ []) := by simp
  rw [e, parseCredLoop_field2 fuel c v [] hv hfuel, parseCredLoop_nil]

theorem parseCredLoop_field3_last (fuel : Nat) (c : Credential) (v : Nat)
    (hv : v < 2 ^ 64) (hfuel : 1 ≤ fuel) :
    parseCredLoop fuel c (0x18 :: varintEnc v) =
      some { c with operatorType := v % 2 ^ 32 } := by
  have e : (0x18 : Nat) :: varintEnc v = 0x18 :: (varintEnc v ++ []) := by simp
  rw [e, parseCredLoop_field3 fuel c v [] hv hfuel, parseCredLoop_nil]

/-- Round-trip at the inner-message level: unmarshalling a canonical
marshalling of a valid `Credential` yields it back. -/
theorem parseCredential_enc (c : Credential) (hv : validCredential c) :
    parseCredential (protoMarshalCredential c) = some c := by
  obtain ⟨nid, ts, op⟩ := c
  obtain ⟨hbytes, hlen, ht1, ht2, hop⟩ := hv
  simp only at hbytes hlen ht1 ht2 hop
  have hlen64 : nid.length < 2 ^ 64 := by omega
  have hu : uint64OfInt ts < 2 ^ 64 := uint64OfInt_lt ts
  have hop64 : op < 2 ^ 64 := by omega
  have hts : intOfUint64 (uint64OfInt ts) = ts := intOfUint64_uint64OfInt ts ht1 ht2
  have hopmod : op % 2 ^ 32 = op := Nat.mod_eq_of_lt (by omega)
  have p1 := varintEnc_length_pos nid.length
  have p2 := varintEnc_length_pos (uint64OfInt ts)
  have p3 := varintEnc_length_pos op
  rw [parseCredential, protoMarshalCredential]
  by_cases h1 : nid = [] <;> by_cases h2 : ts = 0 <;> by_cases h3 : op = 0
  · subst h1 h2 h3
    simp [parseCredLoop_nil]
  · simp only [if_pos h1, if_pos h2, if_neg h3, List.nil_append]
    subst h1 h2
    rw [parseCredLoop_field3_last _ _ _ hop64 (by simp [List.length_cons] <;> omega)]
    simp [hopmod] <;> omega
  · simp only [if_pos h1, if_neg h2, if_pos h3, List.nil_append, List.append_nil]
    subst h1 h3
    rw [parseCredLoop_field2_last _ _ _ hu (by simp [List.length_cons] <;> omega)]
    simp [hts] <;> omega
  · simp only [if_pos h1, if_neg h2, if_neg h3, List.nil_append, List.cons_append,
      List.append_assoc]
    subst h1
    rw [parseCredLoop_field2 _ _ _ _ hu (by simp [List.length_cons] <;> omega)]
    rw [parseCredLoop_field3_last _ _ _ hop64 (by simp [List.length_cons] <;> omega)]
    simp [hts, hopmod] <;> omega
  · simp only [if_neg h1, if_pos h2, if_pos h3, List.append_nil, List.cons_append,
      List.append_assoc]
    subst h2 h3
    rw [parseCredLoop_field1_last _ _ _ hlen64 (by simp [List.length_cons] <;> omega)]
  · simp only [if_neg h1, if_pos h2, if_neg h3, List.append_nil, List.cons_append,
      List.append_assoc]
    subst h2
    rw [parseCredLoop_field1 _ _ _ _ hlen64 (by simp [List.length_cons] <;> omega)]
    rw [parseCredLoop_field3_last _ _ _ hop64
      (by simp [List.length_cons, List.length_append] <;> omega)]
    simp [hopmod] <;> omega
  · simp only [if_neg h1, if_neg h2, if_pos h3, List.append_nil, List.cons_append,
      List.append_assoc]
    subst h3
    rw [parseCredLoop_field1 _ _ _ _ hlen64 (by simp [List.length_cons] <;> omega)]
    rw [parseCredLoop_field2_last _ _ _ hu
      (by simp [List.length_cons, List.length_append] <;> omega)]
    simp [hts] <;> omega
  · simp only [if_neg h1, if_neg h2, if_neg h3, List.cons_append, List.append_assoc]
    rw [parseCredLoop_field1 _ _ _ _ hlen64 (by simp [List.length_cons] <;> omega)]
    rw [parseCredLoop_field2 _ _ _ _ hu
      (by simp [List.length_cons, List.length_append] <;> omega)]
    rw [parseCredLoop_field3_last _ _ _ hop64
      (by simp [List.length_cons, List.length_append] <;> omega)]
    simp [hts, hopmod] <;> omega

theorem parseACLoop_nil (fuel : Nat) (st : AuthenticatedCredential) :
    parseACLoop fuel st [] = some st := by
  cases fuel <;> rfl

theorem parseACLoop_field1 (fuel : Nat) (st : AuthenticatedCredential)
    (p rest : List Nat) (c : Credential) (hlen : p.length < 2 ^ 64)
    (hc : parseCredential p = some c) (hfuel : 1 ≤ fuel) :
    parseACLoop fuel st (0x0a :: (varintEnc p.length ++ (p ++ rest))) =
      parseACLoop (fuel - 1)
        ⟨mergeCredentialOpt st.credential (some c), st.mac⟩ rest := by
  obtain ⟨k, rfl⟩ : ∃ k, fuel = k + 1 := ⟨fuel - 1, by omega⟩
  have ht : varintDec (0x0a :: (varintEnc p.length ++ (p ++ rest))) =
      some (10, varintEnc p.length ++ (p ++ rest)) :=
    varintDec_cons_small 10 _ (by omega)
  have hv : varintDec (varintEnc p.length ++ (p ++ rest)) =
      some (p.length, p ++ rest) := varintDec_enc _ _ hlen
  simp [parseACLoop, ht, hv, takeN_append, hc]

theorem parseACLoop_field1_last (fuel : Nat) (st : AuthenticatedCredential)
    (p : List Nat) (c : Credential) (hlen : p.length < 2 ^ 64)
    (hc : parseCredential p = some c) (hfuel : 1 ≤ fuel) :
    parseACLoop fuel st (0x0a :: (varintEnc p.length ++ p)) =
      some ⟨mergeCredentialOpt st.credential (some c), st.mac⟩ := by
  have e : (0x0a : Nat) :: (varintEnc p.length ++ p) =
      0x0a :: (varintEnc p.length ++ (p ++ [])) := by simp
  rw [e, parseACLoop_field1 fuel st p [] c hlen hc hfuel, parseACLoop_nil]

theorem parseACLoop_field2 (fuel : Nat) (st : AuthenticatedCredential)
    (bs rest : List Nat) (hlen : bs.length < 2 ^ 64) (hfuel : 1 ≤ fuel) :
    parseACLoop fuel st (0x12 :: (varintEnc bs.length ++ (bs ++ rest))) =
      parseACLoop (fuel - 1) ⟨st.credential, bs⟩ rest := by
  obtain ⟨k, rfl⟩ : ∃ k, fuel = k + 1 := ⟨fuel - 1, by omega⟩
  have ht : varintDec (0x12 :: (varintEnc bs.length ++ (bs ++ rest))) =
      some (18, varintEnc bs.length ++ (bs ++ rest)) :=
    varintDec_cons_small 18 _ (by omega)
  have hv : varintDec (varintEnc bs.length ++ (bs ++ rest)) =
      some (bs.length, bs ++ rest) := varintDec_enc _ _ hlen
  simp [parseACLoop, ht, hv, takeN_append]

theorem parseACLoop_field2_last (fuel : Nat) (st : AuthenticatedCredential)
    (bs : List Nat) (hlen : bs.length < 2 ^ 64) (hfuel : 1 ≤ fuel) :
    parseACLoop fuel st (0x12 :: (varintEnc bs.length ++ bs)) =
      some ⟨st.credential, bs⟩ := by
  have e : (0x12 : Nat) :: (varintEnc bs.length ++ bs) =
      0x12 :: (varintEnc bs.length ++ (bs ++ [])) := by simp
  rw [e, parseACLoop_field2 fuel st bs [] hlen hfuel, parseACLoop_nil]

/-- Round-trip at the outer-message level: unmarshalling a canonical
marshalling of an `AuthenticatedCredential` (valid inner message, MAC short
enough for its length varint) yields it back. -/
theorem parseAC_enc (ac : AuthenticatedCredential)
    (hv : ∀ c, ac.credential = some c → validCredential c)
    (hm : ac.mac.length < 2 ^ 64) :
    parseAC (protoMarshalAC ac) = some ac := by
  obtain ⟨ocred, mac⟩ := ac
  simp only at hm
  cases ocred with
  | none =>
    by_cases hmac : mac = []
    · subst hmac
      simp [parseAC, protoMarshalAC, defaultAC, parseACLoop_nil]
    · simp only [protoMarshalAC, if_neg hmac, List.nil_append, List.cons_append]
      rw [parseAC, parseACLoop_field2_last _ _ _ hm
        (by simp [List.length_cons] <;> omega)]
      rfl
  | some c =>
    have hvc : validCredential c := hv c rfl
    have hplen : (protoMarshalCredential c).length < 2 ^ 64 :=
      protoMarshalCredential_length_lt c hvc
    have hpc : parseCredential (protoMarshalCredential c) = some c :=
      parseCredential_enc c hvc
    have ppos := varintEnc_length_pos (protoMarshalCredential c).length
    by_cases hmac : mac = []
    · subst hmac
      simp only [protoMarshalAC, if_pos, List.append_nil, List.cons_append]
      rw [parseAC, parseACLoop_field1_last _ _ _ _ hplen hpc
        (by simp [List.length_cons] <;> omega)]
      rfl
    · simp only [protoMarshalAC, if_neg hmac, List.cons_append, List.append_assoc]
      rw [parseAC, parseACLoop_field1 _ _ _ _ _ hplen hpc
        (by simp [List.length_cons] <;> omega)]
      rw [parseACLoop_field2_last _ _ _ hm
        (by simp [List.length_cons, List.length_append] <;> omega)]
      rfl

theorem mergeAC_default (x : AuthenticatedCredential) : mergeAC defaultAC x = x := by
  obtain ⟨ocred, mac⟩ := x
  cases ocred <;> by_cases hmac : mac = [] <;>
    simp [mergeAC, defaultAC, mergeCredentialOpt, hmac]

/-! ## Lemmas: constant-time comparison -/

theorem natLorEqZero (a b : Nat) : a ||| b = 0 ↔ a = 0 ∧ b = 0 := by
  constructor
  · intro h
    have hb : ∀ i, a.testBit i = false ∧ b.testBit i = false := by
      intro i
      have hc := congrArg (fun n => Nat.testBit n i) h
      simpa [Nat.testBit_or, Nat.zero_testBit] using hc
    exact ⟨Nat.eq_of_testBit_eq (fun i => by simp [(hb i).1, Nat.zero_testBit]),
      Nat.eq_of_testBit_eq (fun i => by simp [(hb i).2, Nat.zero_testBit])⟩
  · rintro ⟨rfl, rfl⟩
    rfl

theorem ctZip_aux (l : List (Nat × Nat)) :
    ∀ a : Nat, (l.foldl (fun v p => v ||| (p.1 ^^^ p.2)) a = 0) ↔
      (a = 0 ∧ ∀ p ∈ l, p.1 = p.2) := by
  induction l with
  | nil => intro a; simp
  | cons p t ih =>
    intro a
    rw [List.foldl_cons, ih]
    simp only [natLorEqZero, Nat.xor_eq_zero, List.forall_mem_cons]
    tauto

theorem eq_of_zip_forall :
    ∀ x y : List Nat, x.length = y.length →
      ((∀ p ∈ x.zip y, p.1 = p.2) ↔ x = y) := by
  intro x
  induction x with
  | nil =>
    intro y h
    cases y with
    | nil => simp
    | cons b u => simp at h
  | cons a t ih =>
    intro y h
    cases y with
    | nil => simp at h
    | cons b u =>
      have h2 : t.length = u.length := by simpa using h
      simp only [List.zip_cons_cons, List.forall_mem_cons, ih u h2,
        List.cons.injEq]

theorem constantTimeCompare_iff (x y : List Nat) :
    constantTimeCompare x y = true ↔ x = y := by
  rw [constantTimeCompare]
  split
  · rename_i hlen
    simp only [beq_iff_eq]
    rw [ctZip_aux]
    simp only [true_and]
    exact eq_of_zip_forall x y hlen
  · rename_i hlen
    simp only [Bool.false_eq_true, false_iff]
    exact fun h => hlen (h ▸ rfl)

theorem hmacEqual_iff (x y : List Nat) : hmacEqual x y = true ↔ x = y :=
  constantTimeCompare_iff x y

theorem ctInstr_aux (l : List (Nat × Nat)) :
    ∀ a k : Nat,
      l.foldl (fun acc p => (acc.1 ||| (p.1 ^^^ p.2), acc.2 + 1)) (a, k) =
        (l.foldl (fun v p => v ||| (p.1 ^^^ p.2)) a, k + l.length) := by
  induction l with
  | nil => intro a k; simp
  | cons p t ih =>
    intro a k
    simp only [List.foldl_cons, ih, List.length_cons, Prod.mk.injEq]
    exact ⟨trivial, by omega⟩

theorem constantTimeCompareInstr_fst (x y : List Nat) :
    (constantTimeCompareInstr x y).1 = constantTimeCompare x y := by
  by_cases hlen : x.length = y.length
  · simp only [constantTimeCompareInstr, constantTimeCompare, if_pos hlen]
    rw [ctInstr_aux (x.zip y) 0 0]
  · simp [constantTimeCompareInstr, constantTimeCompare, hlen]

theorem constantTimeCompareInstr_snd (x y : List Nat) :
    (constantTimeCompareInstr x y).2 =
      if x.length = y.length then (x.zip y).length else 0 := by
  by_cases hlen : x.length = y.length
  · simp only [constantTimeCompareInstr, if_pos hlen]
    rw [ctInstr_aux (x.zip y) 0 0]
    simp
  · simp [constantTimeCompareInstr, hlen]

/-! ## Lemmas: the manager operations under the pool invariant -/

theorem authenticateCredential_spec :
    ∀ (m : CredentialManager) (cred : AuthenticatedCredential), managerInv m →
    ∃ m1, authenticateCredential m cred =
      (.ok { cred with
        mac := hmacSha256 m.key (protoMarshalCredentialOpt cred.credential) }, m1) ∧
      managerInv m1 ∧ m1.key = m.key := by
  rintro ⟨key, pool⟩ cred h
  cases pool with
  | nil =>
    refine ⟨⟨key, [⟨key, []⟩]⟩, ?_, ?_, rfl⟩
    · simp [authenticateCredential, authenticateCredentialWith, realMarshal,
        poolGet, poolPut, ctxWrite, ctxSum, ctxReset]
    · intro ctx hctx
      simp only [List.mem_singleton] at hctx
      subst hctx
      exact ⟨rfl, rfl⟩
  | cons c rest =>
    obtain ⟨hck, hcb⟩ := h c (by simp)
    simp only at hck hcb
    refine ⟨⟨key, ⟨key, []⟩ :: rest⟩, ?_, ?_, rfl⟩
    · simp [authenticateCredential, authenticateCredentialWith, realMarshal,
        poolGet, poolPut, ctxWrite, ctxSum, ctxReset, hck, hcb]
    · intro ctx hctx
      rcases List.mem_cons.mp hctx with rfl | hctx
      · exact ⟨rfl, rfl⟩
      · exact h ctx (by simp [hctx])

theorem create_spec (m : CredentialManager) (ts : Int) (nodeId : List Nat)
    (op : Nat) (hinv : managerInv m) (hlen : nodeId.length = 20) :
    ∃ m1, create m ts nodeId op =
      (.ok ⟨some ⟨nodeId, ts, op⟩,
        hmacSha256 m.key (protoMarshalCredential ⟨nodeId, ts, op⟩)⟩, m1) ∧
      managerInv m1 ∧ m1.key = m.key := by
  obtain ⟨m1, heq, hinv1, hkey⟩ :=
    authenticateCredential_spec m ⟨some ⟨nodeId, ts, op⟩, []⟩ hinv
  refine ⟨m1, ?_, hinv1, hkey⟩
  rw [create, if_neg (by simp [hlen])]
  rw [heq]
  rfl

theorem create_length_error (m : CredentialManager) (ts : Int)
    (nodeId : List Nat) (op : Nat) (hlen : nodeId.length ≠ 20) :
    create m ts nodeId op = (.error (.invalidInputLength nodeId.length), m) := by
  rw [create, if_pos hlen]

theorem verify_spec (m : CredentialManager) (ac : AuthenticatedCredential)
    (hinv : managerInv m) :
    ((verify m ac).1 = .ok () ↔
      hmacSha256 m.key (protoMarshalCredentialOpt ac.credential) = ac.mac) ∧
    (hmacSha256 m.key (protoMarshalCredentialOpt ac.credential) ≠ ac.mac →
      (verify m ac).1 = .error .macMismatch) := by
  obtain ⟨m1, heq, _, _⟩ :=
    authenticateCredential_spec m ⟨ac.credential, []⟩ hinv
  rw [authenticateCredential] at heq
  have hv : verify m ac =
      if hmacEqual (hmacSha256 m.key (protoMarshalCredentialOpt ac.credential))
          ac.mac
        then (.ok (), m1, ac) else (.error .macMismatch, m1, ac) := by
    rw [verify, verifyWith, heq]
  by_cases hE : hmacEqual
      (hmacSha256 m.key (protoMarshalCredentialOpt ac.credential)) ac.mac
  · have hx := (hmacEqual_iff _ _).mp hE
    rw [hv, if_pos hE]
    simp [hx]
  · have hx : hmacSha256 m.key (protoMarshalCredentialOpt ac.credential) ≠
        ac.mac := fun h => hE ((hmacEqual_iff _ _).mpr h)
    rw [hv, if_neg hE]
    simp [hx]

theorem trimPrefix0x_of_ne (l : List Char) (h : ∀ r, l ≠ '0' :: 'x' :: r) :
    trimPrefix0x l = l := by
  rw [trimPrefix0x.eq_def]
  split
  · rename_i r
    exact absurd rfl (h r)
  · rfl

theorem hexEncChar_ne_x : ∀ n, n < 16 → hexEncChar n ≠ 'x' := by
  decide

theorem trimPrefix0x_hexEncodeChars (l : List Nat) (h : ∀ b ∈ l, b < 256) :
    trimPrefix0x (hexEncodeChars l) = hexEncodeChars l := by
  cases l with
  | nil => rfl
  | cons b t =>
    apply trimPrefix0x_of_ne
    intro r hcontra
    rw [hexEncodeChars] at hcontra
    have hb : b < 256 := h b (by simp)
    have h2 : b % 16 < 16 := by omega
    have := hexEncChar_ne_x (b % 16) h2
    simp only [List.cons.injEq] at hcontra
    exact this hcontra.2.1

/-! ## Claim theorems -/

/-- C1: for every manager whose pool satisfies the hygiene invariant (as any
manager built by `NewCredentialManager` does) and every `nodeID` of exactly
20 bytes, `Create(timestamp, nodeID, operatorType)` returns an
`AuthenticatedCredential` whose inner `Credential` is
`{node_id = nodeID, operator_type = operatorType, timestamp = ts}` (with
`ts` the Unix seconds of the timestamp) and whose `mac` is HMAC-SHA256 of
the manager's key over the canonical protobuf serialization of that inner
`Credential` alone — the outer envelope (and in particular its `mac` field)
contributes nothing to the authenticated bytes. -/
theorem create_computes_mac_over_inner_credential (m : CredentialManager)
    (ts : Int) (nodeId : List Nat) (op : Nat) (hinv : managerInv m)
    (hlen : nodeId.length = 20) :
    ∃ m1, create m ts nodeId op =
      (.ok ⟨some ⟨nodeId, ts, op⟩,
        hmacSha256 m.key (protoMarshalCredential ⟨nodeId, ts, op⟩)⟩, m1) := by
  obtain ⟨m1, h, _, _⟩ := create_spec m ts nodeId op hinv hlen
  exact ⟨m1, h⟩

theorem create_computes_mac_over_inner_credential_witness :
    managerInv (newCredentialManager [3, 1, 4]) ∧
    (List.replicate 20 7 : List Nat).length = 20 ∧
    ∃ m1, create (newCredentialManager [3, 1, 4]) 1700000000
        (List.replicate 20 7) 1 =
      (.ok ⟨some ⟨List.replicate 20 7, 1700000000, 1⟩,
        hmacSha256 (newCredentialManager [3, 1, 4]).key
          (protoMarshalCredential ⟨List.replicate 20 7, 1700000000, 1⟩)⟩, m1) :=
  ⟨by decide, by decide,
    create_computes_mac_over_inner_credential (newCredentialManager [3, 1, 4])
      1700000000 (List.replicate 20 7) 1 (by decide) (by decide)⟩

/-- C2: `Create` with a `node_id` whose length is not 20 fails with the
invalid-input error before any MAC work occurs (the manager state, pool
included, is returned untouched); with length exactly 20 it succeeds, and
`Verify` by the same manager on the returned credential reports ok. -/
theorem create_length_check_and_verify_ok (m : CredentialManager) (ts : Int)
    (nodeId : List Nat) (op : Nat) :
    (nodeId.length ≠ 20 →
      create m ts nodeId op = (.error (.invalidInputLength nodeId.length), m)) ∧
    (nodeId.length = 20 → managerInv m →
      ∃ ac m1, create m ts nodeId op = (.ok ac, m1) ∧
        (verify m1 ac).1 = .ok ()) := by
  constructor
  · intro h
    exact create_length_error m ts nodeId op h
  · intro hlen hinv
    obtain ⟨m1, heq, hinv1, hkey⟩ := create_spec m ts nodeId op hinv hlen
    refine ⟨_, m1, heq, ?_⟩
    apply (verify_spec m1 _ hinv1).1.mpr
    rw [hkey]
    rfl

theorem create_length_check_and_verify_ok_witness :
    (([1, 2, 3] : List Nat).length ≠ 20 ∧
      create (newCredentialManager [5, 5]) 0 [1, 2, 3] 0 =
        (.error (.invalidInputLength ([1, 2, 3] : List Nat).length),
          newCredentialManager [5, 5])) ∧
    ((List.replicate 20 1 : List Nat).length = 20 ∧
      managerInv (newCredentialManager [5, 5]) ∧
      ∃ ac m1, create (newCredentialManager [5, 5]) 12 (List.replicate 20 1) 2 =
        (.ok ac, m1) ∧ (verify m1 ac).1 = .ok ()) :=
  ⟨⟨by decide,
    (create_length_check_and_verify_ok (newCredentialManager [5, 5]) 0
      [1, 2, 3] 0).1 (by decide)⟩,
   ⟨by decide, by decide,
    (create_length_check_and_verify_ok (newCredentialManager [5, 5]) 12
      (List.replicate 20 1) 2).2 (by decide) (by decide)⟩⟩

/-- C3: under the pool invariant, `Verify` reports ok exactly when the
recomputed MAC over the canonical serialization of the inner credential
equals the supplied `mac`; on a mismatch it returns the MAC-mismatch error;
and when the serialization step fails (rendered by a failing marshal
oracle, the only fallible step of recomputation in the model — the typed
pool cannot fail), the error is the wrapped internal error, which is never
the MAC-mismatch error. -/
theorem verify_ok_iff_mac_matches :
    (∀ (m : CredentialManager) (ac : AuthenticatedCredential), managerInv m →
      (((verify m ac).1 = .ok () ↔
        hmacSha256 m.key (protoMarshalCredentialOpt ac.credential) = ac.mac) ∧
       (hmacSha256 m.key (protoMarshalCredentialOpt ac.credential) ≠ ac.mac →
        (verify m ac).1 = .error .macMismatch))) ∧
    (∀ (mo : MarshalOracle) (m : CredentialManager)
        (ac : AuthenticatedCredential) (e : String),
      mo ac.credential = .error e →
      (verifyWith mo m ac).1 = .error (.recreateWrap (.serializeWrap e)) ∧
      (verifyWith mo m ac).1 ≠ .error .macMismatch) := by
  constructor
  · intro m ac hinv
    exact verify_spec m ac hinv
  · intro mo m ac e he
    have hred : (verifyWith mo m ac).1 =
        .error (.recreateWrap (.serializeWrap e)) := by
      simp [verifyWith, authenticateCredentialWith, he]
    exact ⟨hred, by simp [hred]⟩

theorem verify_ok_iff_mac_matches_witness :
    (managerInv (newCredentialManager [8]) ∧
      (((verify (newCredentialManager [8]) ⟨some ⟨[1], 2, 3⟩, [4]⟩).1 =
          .ok () ↔
        hmacSha256 (newCredentialManager [8]).key
          (protoMarshalCredentialOpt (some ⟨[1], 2, 3⟩)) = [4]) ∧
       (hmacSha256 (newCredentialManager [8]).key
          (protoMarshalCredentialOpt (some ⟨[1], 2, 3⟩)) ≠ [4] →
        (verify (newCredentialManager [8]) ⟨some ⟨[1], 2, 3⟩, [4]⟩).1 =
          .error .macMismatch))) ∧
    ((fun _ => Except.error "boom" : MarshalOracle)
        (some (⟨[1], 2, 3⟩ : Credential)) = .error "boom" ∧
      (verifyWith (fun _ => .error "boom") (newCredentialManager [8])
          ⟨some ⟨[1], 2, 3⟩, [4]⟩).1 =
        .error (.recreateWrap (.serializeWrap "boom")) ∧
      (verifyWith (fun _ => .error "boom") (newCredentialManager [8])
          ⟨some ⟨[1], 2, 3⟩, [4]⟩).1 ≠ .error .macMismatch) :=
  ⟨⟨by decide,
    verify_ok_iff_mac_matches.1 (newCredentialManager [8])
      ⟨some ⟨[1], 2, 3⟩, [4]⟩ (by decide)⟩,
   ⟨rfl,
    verify_ok_iff_mac_matches.2 (fun _ => .error "boom")
      (newCredentialManager [8]) ⟨some ⟨[1], 2, 3⟩, [4]⟩ "boom" rfl⟩⟩

/-- C4: the two-part text token encoding round-trips: for every valid
`AuthenticatedCredential`, decoding the username/password pair produced by
`Base64URLEncodeUsername` and `Base64URLEncodePassword` with
`Base64URLDecode` reproduces the credential bit-for-bit (same `node_id`,
`operator_type`, `timestamp` and `mac`). -/
theorem tokenpair_roundtrip (ac : AuthenticatedCredential) (c : Credential)
    (hv : validAC ac c) (u pw : String) (ac2 : AuthenticatedCredential)
    (hu : base64URLEncodeUsername ac = some u)
    (hp : base64URLEncodePassword ac = some (.ok pw, ac2)) :
    base64URLDecode u pw = .ok ac := by
  obtain ⟨hcred, hvc, hmb, hml⟩ := hv
  obtain ⟨ocred, mac⟩ := ac
  simp only at hcred hmb hml
  subst hcred
  simp only [base64URLEncodeUsername, Option.some.injEq] at hu
  subst hu
  simp only [base64URLEncodePassword, base64URLEncodePasswordWith, realACMarshal,
    Option.some.injEq, Prod.mk.injEq, Except.ok.injEq] at hp
  obtain ⟨hpw, _⟩ := hp
  subst hpw
  have hb1 : b64Decode (b64Encode c.nodeId) = some c.nodeId :=
    b64Decode_b64Encode c.nodeId hvc.1
  have hblank : validCredential { c with nodeId := [] } := by
    obtain ⟨_, _, h3, h4, h5⟩ := hvc
    exact ⟨by simp, by simp, h3, h4, h5⟩
  have hmbytes : ∀ b ∈ protoMarshalAC ⟨some { c with nodeId := [] }, mac⟩,
      b < 256 := by
    apply protoMarshalAC_byte_lt
    · intro c2 hc2 b hb
      simp only [Option.some.injEq] at hc2
      subst hc2
      simp at hb
    · exact hmb
  have hb2 : b64Decode (b64Encode (protoMarshalAC ⟨some { c with nodeId := [] },
      mac⟩)) = some (protoMarshalAC ⟨some { c with nodeId := [] }, mac⟩) :=
    b64Decode_b64Encode _ hmbytes
  have hparse : parseAC (protoMarshalAC ⟨some { c with nodeId := [] }, mac⟩) =
      some ⟨some { c with nodeId := [] }, mac⟩ := by
    apply parseAC_enc
    · intro c2 hc2
      simp only [Option.some.injEq] at hc2
      subst hc2
      exact hblank
    · show mac.length < 2 ^ 64
      omega
  simp only [base64URLDecode, hb1, hb2, hparse, mergeAC_default]

theorem tokenpair_roundtrip_witness :
    validAC ⟨some ⟨[1, 2, 3], 5, 1⟩, [9, 8]⟩ ⟨[1, 2, 3], 5, 1⟩ ∧
    base64URLDecode (b64Encode [1, 2, 3])
        (b64Encode (protoMarshalAC ⟨some ⟨[], 5, 1⟩, [9, 8]⟩)) =
      .ok ⟨some ⟨[1, 2, 3], 5, 1⟩, [9, 8]⟩ :=
  ⟨by decide,
    tokenpair_roundtrip ⟨some ⟨[1, 2, 3], 5, 1⟩, [9, 8]⟩ ⟨[1, 2, 3], 5, 1⟩
      (by decide) (b64Encode [1, 2, 3])
      (b64Encode (protoMarshalAC ⟨some ⟨[], 5, 1⟩, [9, 8]⟩))
      ⟨some ⟨[1, 2, 3], 5, 1⟩, [9, 8]⟩ rfl rfl⟩

/-- C5: the JSON field encoding has the stated shape (`node_id` as a
`0x`-prefixed lowercase hex string, `timestamp` a plain integer,
`operator_type` its enumerated value, `mac` URL-safe base64) and
round-trips bit-for-bit through `UnmarshalJSON`'s field reconstruction;
the hex decoder also accepts the same document without the `0x` prefix,
and malformed base64 or hex input produces a decoding error. -/
theorem json_roundtrip (ac : AuthenticatedCredential) (c : Credential)
    (hv : validAC ac c) :
    (marshalJSONFields ac =
      some ⟨'0' :: 'x' :: hexEncodeChars c.nodeId, c.timestamp, c.operatorType,
        b64EncodeChars ac.mac⟩) ∧
    (unmarshalJSONFields ⟨'0' :: 'x' :: hexEncodeChars c.nodeId, c.timestamp,
        c.operatorType, b64EncodeChars ac.mac⟩ = .ok ac) ∧
    (unmarshalJSONFields ⟨hexEncodeChars c.nodeId, c.timestamp,
        c.operatorType, b64EncodeChars ac.mac⟩ = .ok ac) ∧
    (∀ j : JsonAC, b64DecodeChars j.mac = none →
      unmarshalJSONFields j = .error .base64Decode) ∧
    (∀ (j : JsonAC) (mac2 : List Nat), b64DecodeChars j.mac = some mac2 →
      hexDecodeChars (trimPrefix0x j.nodeId) = none →
      unmarshalJSONFields j = .error .hexDecode) := by
  obtain ⟨hcred, hvc, hmb, hml⟩ := hv
  obtain ⟨ocred, mac⟩ := ac
  simp only at hcred hmb hml
  subst hcred
  have hhex : hexDecodeChars (hexEncodeChars c.nodeId) = some c.nodeId :=
    hex_roundtrip c.nodeId hvc.1
  have hb64 : b64DecodeChars (b64EncodeChars mac) = some mac :=
    b64_roundtrip mac hmb
  refine ⟨by simp [marshalJSONFields], ?_, ?_, ?_, ?_⟩
  · simp [unmarshalJSONFields, hb64, trimPrefix0x_prefixed, hhex]
  · simp [unmarshalJSONFields, hb64,
      trimPrefix0x_hexEncodeChars c.nodeId hvc.1, hhex]
  · intro j hj
    simp [unmarshalJSONFields, hj]
  · intro j mac2 hj hhexbad
    simp [unmarshalJSONFields, hj, hhexbad]

theorem json_roundtrip_witness :
    validAC ⟨some ⟨[0xde, 0xad], -7, 1⟩, [1, 2, 3]⟩ ⟨[0xde, 0xad], -7, 1⟩ ∧
    (marshalJSONFields ⟨some ⟨[0xde, 0xad], -7, 1⟩, [1, 2, 3]⟩ =
      some ⟨'0' :: 'x' :: hexEncodeChars [0xde, 0xad], -7, 1,
        b64EncodeChars [1, 2, 3]⟩) ∧
    (unmarshalJSONFields ⟨'0' :: 'x' :: hexEncodeChars [0xde, 0xad], -7, 1,
        b64EncodeChars [1, 2, 3]⟩ = .ok ⟨some ⟨[0xde, 0xad], -7, 1⟩, [1, 2, 3]⟩) :=
  ⟨by decide,
    (json_roundtrip ⟨some ⟨[0xde, 0xad], -7, 1⟩, [1, 2, 3]⟩
      ⟨[0xde, 0xad], -7, 1⟩ (by decide)).1,
    (json_roundtrip ⟨some ⟨[0xde, 0xad], -7, 1⟩, [1, 2, 3]⟩
      ⟨[0xde, 0xad], -7, 1⟩ (by decide)).2.1⟩

/-- C6, code bug: decoding is not total. When the base64-decoded password
payload contains no inner credential message — the empty password is the
simplest case — the protobuf unmarshal succeeds with a nil inner message,
the merge leaves the receiver's inner message nil, and the assignment
`ac.Credential.NodeId = nodeID` at src/credentials.go:142 dereferences a
nil pointer, a Go runtime panic rather than a returned value or error. -/
theorem base64URLDecode_empty_password_panics :
    base64URLDecode "" "" = .nilPanic := by
  rfl

/-- C7: `Verify`'s MAC comparison (`hmac.Equal`, modelled by `hmacEqual`,
i.e. `subtle.ConstantTimeCompare`) decides exactly byte-string equality,
and the loop is non-short-circuiting: the instrumented rendition performs a
number of byte operations that is a function of the input lengths only, so
two mismatching inputs cost exactly what two equal inputs of the same
lengths cost, regardless of how many leading bytes match. -/
theorem hmacEqual_constant_time :
    (∀ x y : List Nat, hmacEqual x y = true ↔ x = y) ∧
    (∀ x y x2 y2 : List Nat, x.length = x2.length → y.length = y2.length →
      (constantTimeCompareInstr x y).2 = (constantTimeCompareInstr x2 y2).2) ∧
    (∀ x y : List Nat, (constantTimeCompareInstr x y).1 = hmacEqual x y) := by
  refine ⟨hmacEqual_iff, ?_, constantTimeCompareInstr_fst⟩
  intro x y x2 y2 hx hy
  rw [constantTimeCompareInstr_snd, constantTimeCompareInstr_snd,
    List.length_zip, List.length_zip, hx, hy]

theorem hmacEqual_constant_time_witness :
    ([10, 20, 30] : List Nat).length = ([10, 99, 99] : List Nat).length ∧
    ([10, 20, 30] : List Nat).length = ([10, 20, 30] : List Nat).length ∧
    (constantTimeCompareInstr [10, 20, 30] [10, 20, 30]).2 =
      (constantTimeCompareInstr [10, 99, 99] [10, 20, 30]).2 :=
  ⟨by decide, by decide,
    hmacEqual_constant_time.2.1 [10, 20, 30] [10, 20, 30] [10, 99, 99]
      [10, 20, 30] (by decide) (by decide)⟩

/-- C8, counterexample: `Base64URLEncodePassword` does not restore the
blanked `node_id` on the serialization-failure path. With a marshal oracle
that fails (the fallible signature of `proto.Marshal`, which the code
handles via a branch that returns before the restore at
src/credentials.go:108), the credential comes back with `node_id` blanked,
not the original value. -/
theorem base64URLEncodePassword_error_leaves_blank :
    base64URLEncodePasswordWith (fun _ => .error "marshal failure")
        ⟨some ⟨[1], 2, 3⟩, [4]⟩ =
      some (.error "marshal failure", ⟨some ⟨[], 2, 3⟩, [4]⟩) ∧
    (⟨some ⟨[], 2, 3⟩, [4]⟩ : AuthenticatedCredential) ≠
      ⟨some ⟨[1], 2, 3⟩, [4]⟩ :=
  ⟨rfl, by decide⟩

/-- C8, amended: `Base64URLEncodePassword` restores the temporarily blanked
`node_id` before returning whenever the internal protobuf serialization
succeeds — in particular always under the actual total `proto.Marshal`
behaviour, so every reachable execution leaves the credential unchanged —
but on the (unreachable with these messages) serialization-failure path it
returns with `node_id` still blanked. -/
theorem base64URLEncodePassword_restore_semantics (mo : ACMarshalOracle)
    (ac : AuthenticatedCredential) (c : Credential)
    (hcred : ac.credential = some c) :
    (∀ bs, mo ⟨some { c with nodeId := [] }, ac.mac⟩ = .ok bs →
      base64URLEncodePasswordWith mo ac = some (.ok (b64Encode bs), ac)) ∧
    (∀ e, mo ⟨some { c with nodeId := [] }, ac.mac⟩ = .error e →
      base64URLEncodePasswordWith mo ac =
        some (.error e, ⟨some { c with nodeId := [] }, ac.mac⟩)) ∧
    (base64URLEncodePassword ac =
      some (.ok (b64Encode (protoMarshalAC ⟨some { c with nodeId := [] },
        ac.mac⟩)), ac)) := by
  obtain ⟨ocred, mac⟩ := ac
  simp only at hcred
  subst hcred
  refine ⟨?_, ?_, ?_⟩
  · intro bs hmo
    simp [base64URLEncodePasswordWith, hmo]
  · intro e hmo
    simp [base64URLEncodePasswordWith, hmo]
  · simp [base64URLEncodePassword, base64URLEncodePasswordWith, realACMarshal]

theorem base64URLEncodePassword_restore_semantics_witness :
    ((⟨some ⟨[1], 2, 3⟩, [4]⟩ : AuthenticatedCredential).credential =
      some ⟨[1], 2, 3⟩) ∧
    ((fun _ => Except.error "mf" : ACMarshalOracle)
        ⟨some ⟨[], 2, 3⟩, [4]⟩ = .error "mf") ∧
    (base64URLEncodePasswordWith (fun _ => .error "mf")
        ⟨some ⟨[1], 2, 3⟩, [4]⟩ = some (.error "mf", ⟨some ⟨[], 2, 3⟩, [4]⟩)) ∧
    (base64URLEncodePassword ⟨some ⟨[1], 2, 3⟩, [4]⟩ =
      some (.ok (b64Encode (protoMarshalAC ⟨some ⟨[], 2, 3⟩, [4]⟩)),
        ⟨some ⟨[1], 2, 3⟩, [4]⟩)) :=
  ⟨rfl, rfl,
    (base64URLEncodePassword_restore_semantics (fun _ => .error "mf")
      ⟨some ⟨[1], 2, 3⟩, [4]⟩ ⟨[1], 2, 3⟩ rfl).2.1 "mf" rfl,
    (base64URLEncodePassword_restore_semantics (fun _ => .error "mf")
      ⟨some ⟨[1], 2, 3⟩, [4]⟩ ⟨[1], 2, 3⟩ rfl).2.2⟩

/-- C9: `Verify` never mutates its input: the credential the caller holds
after the call is the one passed in, on the ok path and on every error
path; the recomputed MAC lives only in the internal temporary envelope,
which is discarded. (In the source, `tmp` shares the inner message pointer
with the argument, but `authenticateCredential` writes only `tmp.Mac` and
the pool, never through the shared inner message or the argument.) -/
theorem verify_preserves_input (m : CredentialManager)
    (ac : AuthenticatedCredential) : (verify m ac).2.2 = ac := by
  rcases hr : authenticateCredentialWith realMarshal m ⟨ac.credential, []⟩
    with ⟨r, m1⟩
  rw [verify, verifyWith, hr]
  cases r with
  | error e => rfl
  | ok t =>
    by_cases hE : hmacEqual t.mac ac.mac <;> simp [hE]

/-- C10: `Create` is deterministic: two managers holding the same key — in
any pool states satisfying the hygiene invariant, so in particular two
distinct managers or the same manager at different times — produce
byte-identical MACs for identical `(timestamp, node_id, operator_type)`;
the MAC computation draws on nothing but the key and the serialized
credential. -/
theorem create_deterministic_same_key (m1 m2 : CredentialManager) (ts : Int)
    (nodeId : List Nat) (op : Nat) (hkey : m1.key = m2.key)
    (h1 : managerInv m1) (h2 : managerInv m2) (hlen : nodeId.length = 20) :
    ∃ ac1 ac2 n1 n2, create m1 ts nodeId op = (.ok ac1, n1) ∧
      create m2 ts nodeId op = (.ok ac2, n2) ∧ ac1.mac = ac2.mac := by
  obtain ⟨n1, e1, _, _⟩ := create_spec m1 ts nodeId op h1 hlen
  obtain ⟨n2, e2, _, _⟩ := create_spec m2 ts nodeId op h2 hlen
  exact ⟨_, _, n1, n2, e1, e2, by simp [hkey]⟩

theorem create_deterministic_same_key_witness :
    (CredentialManager.mk [7, 7] []).key =
      (CredentialManager.mk [7, 7] [⟨[7, 7], []⟩]).key ∧
    managerInv (CredentialManager.mk [7, 7] []) ∧
    managerInv (CredentialManager.mk [7, 7] [⟨[7, 7], []⟩]) ∧
    (List.replicate 20 2 : List Nat).length = 20 ∧
    ∃ ac1 ac2 n1 n2,
      create (CredentialManager.mk [7, 7] []) 99 (List.replicate 20 2) 1 =
        (.ok ac1, n1) ∧
      create (CredentialManager.mk [7, 7] [⟨[7, 7], []⟩]) 99
          (List.replicate 20 2) 1 = (.ok ac2, n2) ∧
      ac1.mac = ac2.mac :=
  ⟨by decide, by decide, by decide, by decide,
    create_deterministic_same_key (CredentialManager.mk [7, 7] [])
      (CredentialManager.mk [7, 7] [⟨[7, 7], []⟩]) 99 (List.replicate 20 2) 1
      (by decide) (by decide) (by decide) (by decide)⟩

end Credentials
